import Mathlib

/-!
Verification of the resume-builder conversation engine and its algorithmic
subsystems. The repository ships the backend as `src/resume_agent`
(`graph.py`, `nodes.py`, `latex_service.py`); those files are not part of
the source snapshot, only their design documents and the frontend are, so
the backend components are modelled from the specification as indicated on
each definition. The frontend definitions are translated from the
TypeScript sources.
-/

namespace ResumeBuilder

/-! ## Text utilities (shared by ATS scorer and content selector)

Modelled from the spec: whole-word, case-insensitive matching over the
concatenation of selected-content text (spec 4.5), and lower-cased
tokenization of entry text (spec 4.4). Words are maximal runs of
alphanumeric characters.
-/

/-- Lower-case a character list. -/
def lowerChars (l : List Char) : List Char := l.map Char.toLower

/-- Tokenizer worker: accumulates the current (reversed) in-progress word. -/
def tokensAux : List Char → List Char → List (List Char)
  | [], cur => if cur = [] then [] else [cur.reverse]
  | c :: r, cur =>
    if c.isAlphanum then tokensAux r (c :: cur)
    else if cur = [] then tokensAux r []
    else cur.reverse :: tokensAux r []

/-- The lower-cased words of a text: maximal alphanumeric runs. -/
def tokens (l : List Char) : List (List Char) := tokensAux (lowerChars l) []

/-- Whether a keyword occurs as a whole word, case-insensitively, in a text. -/
def containsWord (text : List Char) (kw : List Char) : Bool :=
  (tokens text).contains (lowerChars kw)

/-! ## ATS Scorer

Modelled from the spec (section 4.5, component missing from the snapshot):
matched keywords, score `100 * |matched| / max(1, |job_keywords|)` clamped
to `[0, 100]`, missing keywords in original order.
-/

/-- Result of ATS scoring: score, matched keywords, missing keywords. -/
structure AtsResult where
  score : ℚ
  matched : List String
  missing : List String
  deriving DecidableEq

/-- One pass over the job keywords, partitioning into matched and missing. -/
def atsPartition (text : List Char) : List String → List String × List String
  | [] => ([], [])
  | k :: ks =>
    let rest := atsPartition text ks
    if containsWord text k.data then (k :: rest.1, rest.2)
    else (rest.1, k :: rest.2)

/-- ATS scorer: keyword coverage of the selected-content text. -/
def atsScore (jobKeywords : List String) (text : List Char) : AtsResult :=
  let p := atsPartition text jobKeywords
  let raw : ℚ := (100 * p.1.length : ℚ) / (max 1 jobKeywords.length : ℕ)
  { score := min 100 (max 0 raw), matched := p.1, missing := p.2 }

theorem atsPartition_fst (text : List Char) :
    ∀ ks : List String, (atsPartition text ks).1 =
      ks.filter (fun k => containsWord text k.data)
  | [] => rfl
  | k :: ks => by
    simp only [atsPartition, List.filter]
    cases h : containsWord text k.data <;>
      simp [h, atsPartition_fst text ks]

theorem atsPartition_snd (text : List Char) :
    ∀ ks : List String, (atsPartition text ks).2 =
      ks.filter (fun k => ¬ containsWord text k.data)
  | [] => rfl
  | k :: ks => by
    simp only [atsPartition, List.filter]
    cases h : containsWord text k.data <;>
      simp [h, atsPartition_snd text ks]

theorem atsPartition_length (text : List Char) :
    ∀ ks : List String,
      (atsPartition text ks).1.length + (atsPartition text ks).2.length = ks.length
  | [] => rfl
  | k :: ks => by
    have ih := atsPartition_length text ks
    simp only [atsPartition]
    cases h : containsWord text k.data <;> simp [h] <;> omega

theorem atsScore_matched (kws : List String) (text : List Char) :
    (atsScore kws text).matched = kws.filter (fun k => containsWord text k.data) :=
  atsPartition_fst text kws

theorem atsScore_missing (kws : List String) (text : List Char) :
    (atsScore kws text).missing = kws.filter (fun k => ¬ containsWord text k.data) :=
  atsPartition_snd text kws

theorem mem_atsScore_matched (kws : List String) (text : List Char) (k : String) :
    k ∈ (atsScore kws text).matched ↔ k ∈ kws ∧ containsWord text k.data := by
  rw [atsScore_matched, List.mem_filter]

theorem atsScore_matched_length_le (kws : List String) (text : List Char) :
    (atsScore kws text).matched.length ≤ kws.length := by
  rw [atsScore_matched]
  exact List.length_filter_le _ _

theorem atsScore_length_split (kws : List String) (text : List Char) :
    (atsScore kws text).matched.length + (atsScore kws text).missing.length
      = kws.length :=
  atsPartition_length text kws

/-- The clamp in the score is inert: the raw ratio is already in range. -/
theorem atsScore_score_eq_raw (kws : List String) (text : List Char) :
    (atsScore kws text).score =
      (100 * (atsScore kws text).matched.length : ℚ) / (max 1 kws.length : ℕ) := by
  have hm : (atsScore kws text).matched.length ≤ kws.length :=
    atsScore_matched_length_le kws text
  set m := (atsScore kws text).matched.length with hmdef
  set n := kws.length with hndef
  have hpos : (0 : ℚ) < ((max 1 n : ℕ) : ℚ) := by
    have : (1 : ℕ) ≤ max 1 n := le_max_left 1 n
    exact_mod_cast Nat.lt_of_lt_of_le Nat.zero_lt_one this
  have hraw_nonneg : (0 : ℚ) ≤ (100 * m : ℚ) / ((max 1 n : ℕ) : ℚ) := by
    apply div_nonneg _ (le_of_lt hpos)
    positivity
  have hraw_le : (100 * m : ℚ) / ((max 1 n : ℕ) : ℚ) ≤ 100 := by
    rw [div_le_iff₀ hpos]
    have h1 : (m : ℚ) ≤ ((max 1 n : ℕ) : ℚ) := by
      exact_mod_cast le_trans hm (le_max_right 1 n)
    nlinarith [h1]
  show min 100 (max 0 ((100 * m : ℚ) / ((max 1 n : ℕ) : ℚ))) = _
  rw [max_eq_right hraw_nonneg, min_eq_right hraw_le]

theorem atsScore_score_nonneg (kws : List String) (text : List Char) :
    (0 : ℚ) ≤ (atsScore kws text).score :=
  le_min (by norm_num) (le_max_left 0 _)

theorem atsScore_score_le (kws : List String) (text : List Char) :
    (atsScore kws text).score ≤ 100 :=
  min_le_left 100 _

/-- Claim C1 (spec-modelled): the ATS scorer returns exactly the job keywords
that occur as whole-word case-insensitive matches in the selected-content
text, in original order; the score is the clamped coverage ratio
`100 * |matched| / max(1, |job_keywords|)`; and the missing list is the job
keywords minus the matched ones, preserving the original keyword order. -/
theorem ats_scorer_characterization (kws : List String) (text : List Char) :
    (∀ k, k ∈ (atsScore kws text).matched ↔ k ∈ kws ∧ containsWord text k.data) ∧
    (atsScore kws text).matched = kws.filter (fun k => containsWord text k.data) ∧
    (atsScore kws text).missing
      = kws.filter (fun k => decide (k ∉ (atsScore kws text).matched)) ∧
    (atsScore kws text).missing.Sublist kws ∧
    (atsScore kws text).score =
      min 100 (max 0
        ((100 * (atsScore kws text).matched.length : ℚ) / (max 1 kws.length : ℕ))) := by
  refine ⟨mem_atsScore_matched kws text, atsScore_matched kws text, ?_, ?_, ?_⟩
  · rw [atsScore_missing]
    apply List.filter_congr
    intro k hk
    have hmem := mem_atsScore_matched kws text k
    by_cases h : containsWord text k.data <;>
      simp [h, hmem, hk]
  · rw [atsScore_missing]
    exact List.filter_sublist kws
  · rfl

/-- Claim C2 (spec-modelled): for every input the ATS score is within
`[0, 100]`; for a non-empty keyword list the score is 100 exactly when
nothing is missing, and 0 exactly when nothing matched. -/
theorem ats_score_bounds_and_extremes (kws : List String) (text : List Char) :
    (0 : ℚ) ≤ (atsScore kws text).score ∧ (atsScore kws text).score ≤ 100 ∧
    (kws ≠ [] →
      ((atsScore kws text).score = 100 ↔ (atsScore kws text).missing = []) ∧
      ((atsScore kws text).score = 0 ↔ (atsScore kws text).matched = [])) := by
  refine ⟨atsScore_score_nonneg kws text, atsScore_score_le kws text, ?_⟩
  intro hne
  have hm : (atsScore kws text).matched.length ≤ kws.length :=
    atsScore_matched_length_le kws text
  have hsplit := atsScore_length_split kws text
  have hn1 : 1 ≤ kws.length := List.length_pos.mpr hne
  have hmax : max 1 kws.length = kws.length := Nat.max_eq_right hn1
  have hraw := atsScore_score_eq_raw kws text
  have hpos : (0 : ℚ) < (kws.length : ℚ) := by exact_mod_cast hn1
  refine ⟨?_, ?_⟩
  · rw [hraw, hmax]
    rw [div_eq_iff (ne_of_gt hpos)]
    constructor
    · intro h
      have : ((atsScore kws text).matched.length : ℚ) = (kws.length : ℚ) := by
        nlinarith [h]
      have hlen : (atsScore kws text).matched.length = kws.length := by
        exact_mod_cast this
      have : (atsScore kws text).missing.length = 0 := by omega
      exact List.length_eq_zero.mp this
    · intro h
      have hlen : (atsScore kws text).missing.length = 0 := by rw [h]; rfl
      have heq : (atsScore kws text).matched.length = kws.length := by omega
      rw [heq]
  · rw [hraw, hmax]
    rw [div_eq_zero_iff]
    constructor
    · intro h
      rcases h with h | h
      · have : ((atsScore kws text).matched.length : ℚ) = 0 := by nlinarith [h]
        have hlen : (atsScore kws text).matched.length = 0 := by exact_mod_cast this
        exact List.length_eq_zero.mp hlen
      · exact absurd h (ne_of_gt hpos)
    · intro h
      left
      rw [h]
      simp

/-- Witness for C2 at a concrete input: one keyword, matching text; the
non-emptiness hypothesis of the extremes part is discharged there. -/
theorem ats_score_bounds_witness :
    ((0 : ℚ) ≤ (atsScore [("python")] ("python rocks").data).score ∧
      (atsScore [("python")] ("python rocks").data).score ≤ 100) ∧
    ((atsScore [("python")] ("python rocks").data).score = 100 ↔
      (atsScore [("python")] ("python rocks").data).missing = []) ∧
    ((atsScore [("python")] ("python rocks").data).score = 0 ↔
      (atsScore [("python")] ("python rocks").data).matched = []) :=
  ⟨⟨(ats_score_bounds_and_extremes [("python")] ("python rocks").data).1,
    (ats_score_bounds_and_extremes [("python")] ("python rocks").data).2.1⟩,
   (ats_score_bounds_and_extremes [("python")] ("python rocks").data).2.2
     (by decide)⟩

/-! ## Profile entries and Content Selector

Modelled from the spec (section 4.4, component missing from the snapshot):
per-entry relevance from keyword overlap, stable descending sort.
-/

/-- An Experience or Project entry: title, organization, technology tags,
bullets. -/
structure Entry where
  title : String
  organization : String
  tags : List String
  bullets : List String
  deriving DecidableEq

/-- Concatenate a list of strings into a character list, space-separated. -/
def wordsChars : List String → List Char
  | [] => []
  | s :: r => s.data ++ ' ' :: wordsChars r

/-- All text of one entry: title, organization, tags and bullets. -/
def entryChars (e : Entry) : List Char :=
  e.title.data ++ ' ' :: e.organization.data ++ ' ' ::
    (wordsChars e.tags ++ wordsChars e.bullets)

/-- The concatenation of the selected-content text of a list of entries. -/
def selectedChars : List Entry → List Char
  | [] => []
  | e :: r => entryChars e ++ ' ' :: selectedChars r

/-- Relevance of an entry: `100 * |keywords_in_entry ∩ job_keywords| /
max(1, |job_keywords|)`. -/
def relevance (kws : List String) (e : Entry) : ℚ :=
  (100 * (kws.filter (fun k => containsWord (entryChars e) k.data)).length : ℚ)
    / (max 1 kws.length : ℕ)

/-- An entry decorated with its original position and its relevance score. -/
structure ScoredEntry where
  idx : ℕ
  entry : Entry
  rel : ℚ

/-- Score every entry, remembering the original input position. -/
def scoreEntries (kws : List String) (es : List Entry) : List ScoredEntry :=
  es.enum.map (fun p => ⟨p.1, p.2, relevance kws p.2⟩)

/-- Ranking order: higher relevance first, ties by original position. -/
def rankLE (a b : ScoredEntry) : Prop :=
  b.rel < a.rel ∨ (a.rel = b.rel ∧ a.idx ≤ b.idx)

instance (a b : ScoredEntry) : Decidable (rankLE a b) := by
  unfold rankLE
  infer_instance

instance : IsTotal ScoredEntry rankLE where
  total a b := by
    rcases lt_trichotomy a.rel b.rel with h | h | h
    · exact Or.inr (Or.inl h)
    · rcases Nat.le_total a.idx b.idx with h2 | h2
      · exact Or.inl (Or.inr ⟨h, h2⟩)
      · exact Or.inr (Or.inr ⟨h.symm, h2⟩)
    · exact Or.inl (Or.inl h)

instance : IsTrans ScoredEntry rankLE where
  trans a b c hab hbc := by
    rcases hab with h1 | ⟨h1, h1i⟩ <;> rcases hbc with h2 | ⟨h2, h2i⟩
    · exact Or.inl (lt_trans h2 h1)
    · exact Or.inl (h2 ▸ h1)
    · exact Or.inl (by rw [h1]; exact h2)
    · exact Or.inr ⟨h1.trans h2, le_trans h1i h2i⟩

/-- The ranking phase of the content selector: a stable descending sort of
the scored entries (ties keep the original input order). -/
def rankEntries (kws : List String) (es : List Entry) : List ScoredEntry :=
  (scoreEntries kws es).insertionSort rankLE

/-- Selection caps the number of entries after ranking. -/
def selectContent (cap : ℕ) (kws : List String) (es : List Entry) :
    List ScoredEntry :=
  (rankEntries kws es).take cap

theorem rankEntries_perm (kws : List String) (es : List Entry) :
    (rankEntries kws es).Perm (scoreEntries kws es) :=
  List.perm_insertionSort rankLE (scoreEntries kws es)

theorem rankEntries_sorted (kws : List String) (es : List Entry) :
    (rankEntries kws es).Pairwise rankLE :=
  List.sorted_insertionSort rankLE (scoreEntries kws es)

theorem rankEntries_idx_nodup (kws : List String) (es : List Entry) :
    ((rankEntries kws es).map ScoredEntry.idx).Nodup := by
  have hperm : ((rankEntries kws es).map ScoredEntry.idx).Perm
      ((scoreEntries kws es).map ScoredEntry.idx) :=
    (rankEntries_perm kws es).map ScoredEntry.idx
  rw [hperm.nodup_iff]
  have : (scoreEntries kws es).map ScoredEntry.idx = es.enum.map Prod.fst := by
    simp only [scoreEntries, List.map_map]
    rfl
  rw [this, List.enum_map_fst]
  exact List.nodup_range es.length

theorem mem_scoreEntries (kws : List String) (es : List Entry)
    (s : ScoredEntry) (hs : s ∈ scoreEntries kws es) :
    s.rel = relevance kws s.entry ∧ es[s.idx]? = some s.entry := by
  simp only [scoreEntries, List.mem_map] at hs
  obtain ⟨⟨i, e⟩, hmem, heq⟩ := hs
  cases heq
  refine ⟨rfl, ?_⟩
  exact List.mk_mem_enum_iff_getElem?.mp hmem

/-- Claim C6 (spec-modelled): the content selector assigns every entry the
relevance `100 * |keywords_in_entry ∩ job_keywords| / max(1, |job_keywords|)`
and ranks the entries in descending relevance, with equally-scored entries
kept in their original input order (stable sort); nothing is added, dropped
or duplicated by the ranking. -/
theorem content_selector_ranking (kws : List String) (es : List Entry) :
    (rankEntries kws es).Perm (scoreEntries kws es) ∧
    (∀ s ∈ rankEntries kws es,
      s.rel = relevance kws s.entry ∧ es[s.idx]? = some s.entry) ∧
    (rankEntries kws es).Pairwise
      (fun a b => b.rel < a.rel ∨ (a.rel = b.rel ∧ a.idx < b.idx)) := by
  refine ⟨rankEntries_perm kws es, ?_, ?_⟩
  · intro s hs
    exact mem_scoreEntries kws es s ((rankEntries_perm kws es).mem_iff.mp hs)
  · have hsorted := rankEntries_sorted kws es
    have hne : (rankEntries kws es).Pairwise
        (fun a b => ScoredEntry.idx a ≠ ScoredEntry.idx b) :=
      (List.pairwise_map.mp (rankEntries_idx_nodup kws es))
    have hand := hsorted.and hne
    apply hand.imp
    intro a b hab
    rcases hab with ⟨h1 | ⟨h1, h1i⟩, h2⟩
    · exact Or.inl h1
    · exact Or.inr ⟨h1, lt_of_le_of_ne h1i h2⟩

/-! ## Scenario A (spec section 8) -/

/-- Scenario A profile: exactly one experience containing "Python, AWS". -/
def scenarioAEntry : Entry :=
  { title := ("Experience"), organization := (""), tags := []
    bullets := [("Python, AWS")] }

/-- Scenario A job keywords. -/
def scenarioAKeywords : List String := [("python"), ("aws"), ("docker")]

/-- Scenario A selected-content text. -/
def scenarioAText : List Char := selectedChars [scenarioAEntry]

/-- Rounding a rational to one decimal place. -/
def roundTenths (q : ℚ) : ℚ := (round (10 * q) : ℤ) / 10

/-- Counterexample to claim C7: in Scenario A the exact ATS score is
`200/3 = 66.666...`, not `66.7`; `66.7` only appears after rounding the
score to one decimal for display. -/
theorem scenario_a_score_not_667 :
    (atsScore scenarioAKeywords scenarioAText).score ≠ 667 / 10 := by
  have hm : (atsScore scenarioAKeywords scenarioAText).matched.length = 2 := by
    decide
  rw [atsScore_score_eq_raw, hm]
  intro h
  rw [div_eq_iff (by norm_num [scenarioAKeywords] : ((max 1 scenarioAKeywords.length : ℕ) : ℚ) ≠ 0)] at h
  norm_num [scenarioAKeywords] at h

/-- Claim C7 as amended (spec-modelled): in Scenario A the matched list is
`["python", "aws"]`, the missing list is `["docker"]`, and the score is
exactly `200/3`, which rounds to `66.7` at one decimal place. -/
theorem scenario_a_values :
    (atsScore scenarioAKeywords scenarioAText).matched = [("python"), ("aws")] ∧
    (atsScore scenarioAKeywords scenarioAText).missing = [("docker")] ∧
    (atsScore scenarioAKeywords scenarioAText).score = 200 / 3 ∧
    roundTenths (atsScore scenarioAKeywords scenarioAText).score = 667 / 10 := by
  have hm : (atsScore scenarioAKeywords scenarioAText).matched.length = 2 := by
    decide
  have hscore : (atsScore scenarioAKeywords scenarioAText).score = 200 / 3 := by
    rw [atsScore_score_eq_raw, hm]
    rw [div_eq_div_iff (by norm_num [scenarioAKeywords] : ((max 1 scenarioAKeywords.length : ℕ) : ℚ) ≠ 0)
      (by norm_num : (3 : ℚ) ≠ 0)]
    norm_num [scenarioAKeywords]
  refine ⟨by decide, by decide, hscore, ?_⟩
  rw [hscore]
  norm_num [roundTenths, round_eq]

/-! ## Conversation Engine (state machine)

Modelled from the spec (sections 4.1, 4.2, 7; `graph.py` and `nodes.py`
are missing from the snapshot). Stages follow the canonical order; the
two waiting stages are suspension points. External-call outcomes that the
engine branches on (usable extraction, successful job analysis, successful
template substitution) are carried on the inbound message as oracles.
-/

/-- The stages of the conversation state machine, in canonical order. -/
inductive Stage
  | INIT
  | AWAIT_RESUME
  | EXTRACTING_PROFILE
  | AWAIT_JOB_DESCRIPTION
  | ANALYZING_JOB
  | SELECTING_CONTENT
  | SCORING_ATS
  | SYNTHESIZING_DOCUMENT
  | DONE
  deriving DecidableEq, Repr

/-- Position of a stage in the canonical order. -/
def Stage.pos : Stage → ℕ
  | .INIT => 0
  | .AWAIT_RESUME => 1
  | .EXTRACTING_PROFILE => 2
  | .AWAIT_JOB_DESCRIPTION => 3
  | .ANALYZING_JOB => 4
  | .SELECTING_CONTENT => 5
  | .SCORING_ATS => 6
  | .SYNTHESIZING_DOCUMENT => 7
  | .DONE => 8

/-- The canonical stage order of spec section 4.1. -/
def canonicalOrder : List Stage :=
  [.INIT, .AWAIT_RESUME, .EXTRACTING_PROFILE, .AWAIT_JOB_DESCRIPTION,
   .ANALYZING_JOB, .SELECTING_CONTENT, .SCORING_ATS,
   .SYNTHESIZING_DOCUMENT, .DONE]

/-- An inbound message together with the outcomes of the external calls
made while processing it: whether profile extraction yields usable data,
whether job analysis succeeds, and whether template substitution succeeds. -/
structure Msg where
  text : String
  extractionUsable : Bool
  analysisOk : Bool
  synthesisOk : Bool
  deriving DecidableEq

/-- Extraction failure reasons (spec section 4.2). -/
inductive ExtractionError
  | too_short
  | no_usable_data
  deriving DecidableEq, Repr

/-- Minimum resume length accepted by the Profile Extractor (the quick-start
guide: paste at least 100 characters). -/
def minResumeLength : ℕ := 100

/-- Profile extraction: reject trivially short input with `too_short`,
otherwise fail when the external call yields no usable contact or
experience data. -/
def extractProfile (m : Msg) : Except ExtractionError String :=
  if m.text.length < minResumeLength then .error .too_short
  else if m.extractionUsable then .ok m.text
  else .error .no_usable_data

/-- The persisted state of one conversation thread. -/
structure EngineState where
  stage : Stage
  profile : Option String
  deriving DecidableEq

/-- Fresh state for a new thread; the profile is whatever already exists
for the thread user. -/
def initialState (existingProfile : Option String) : EngineState :=
  { stage := .INIT, profile := existingProfile }

/-- Consume the current message at `AWAIT_JOB_DESCRIPTION`: analyze the
job, select content, score, synthesize; a template error keeps the
conversation in `SYNTHESIZING_DOCUMENT`, analysis failure re-requests the
same input. Returns the new state and the stages visited. -/
def consumeAtJD (st : EngineState) (m : Msg) : EngineState × List Stage :=
  if m.analysisOk then
    if m.synthesisOk then
      ({ st with stage := .DONE },
       [.ANALYZING_JOB, .SELECTING_CONTENT, .SCORING_ATS,
        .SYNTHESIZING_DOCUMENT, .DONE])
    else
      ({ st with stage := .SYNTHESIZING_DOCUMENT },
       [.ANALYZING_JOB, .SELECTING_CONTENT, .SCORING_ATS,
        .SYNTHESIZING_DOCUMENT])
  else ({ st with stage := .AWAIT_JOB_DESCRIPTION }, [])

/-- Consume the current message at `AWAIT_RESUME`: on a failed extraction
the stage does not advance; on success the profile is stored and the
thread suspends awaiting a job description. -/
def consumeAtResume (st : EngineState) (m : Msg) : EngineState × List Stage :=
  match extractProfile m with
  | .error _ => ({ st with stage := .AWAIT_RESUME }, [])
  | .ok p =>
    ({ st with stage := .AWAIT_JOB_DESCRIPTION, profile := some p },
     [.EXTRACTING_PROFILE, .AWAIT_JOB_DESCRIPTION])

/-- One turn of the conversation engine: route from the persisted stage,
consuming the inbound message at the appropriate suspension point.
`INIT` goes to `AWAIT_RESUME` for a new user and directly to
`AWAIT_JOB_DESCRIPTION` for a returning user with a stored profile; after
`DONE` a new message restarts at `AWAIT_JOB_DESCRIPTION` with the profile
retained. Returns the new state and the list of stages visited. -/
def processTurn (st : EngineState) (m : Msg) : EngineState × List Stage :=
  match st.stage with
  | .INIT =>
    match st.profile with
    | some _ =>
      let r := consumeAtJD { st with stage := .AWAIT_JOB_DESCRIPTION } m
      (r.1, .AWAIT_JOB_DESCRIPTION :: r.2)
    | none =>
      let r := consumeAtResume { st with stage := .AWAIT_RESUME } m
      (r.1, .AWAIT_RESUME :: r.2)
  | .AWAIT_RESUME => consumeAtResume st m
  | .AWAIT_JOB_DESCRIPTION => consumeAtJD st m
  | .SYNTHESIZING_DOCUMENT =>
    if m.synthesisOk then ({ st with stage := .DONE }, [.DONE]) else (st, [])
  | .DONE =>
    let r := consumeAtJD { st with stage := .AWAIT_JOB_DESCRIPTION } m
    (r.1, .AWAIT_JOB_DESCRIPTION :: r.2)
  | _ => (st, [])

/-- The stages visited while processing a sequence of messages. -/
def runTrace (st : EngineState) : List Msg → List Stage
  | [] => []
  | m :: ms => (processTurn st m).2 ++ runTrace (processTurn st m).1 ms

/-- The state after processing a sequence of messages. -/
def runState (st : EngineState) : List Msg → EngineState
  | [] => st
  | m :: ms => runState (processTurn st m).1 ms

/-- A run with no restart: no message is processed while the thread is in
stage `DONE` (i.e. the run covers at most one completed generation). -/
def noRestart (st : EngineState) : List Msg → Prop
  | [] => True
  | m :: ms => st.stage ≠ .DONE ∧ noRestart (processTurn st m).1 ms

theorem Stage.pos_le_eight (s : Stage) : s.pos ≤ 8 := by
  cases s <;> decide

/-- On a turn that is not a restart, the visited stages strictly ascend,
all lie strictly after the entry stage, and end at the new stage. -/
theorem processTurn_ascending (st : EngineState) (m : Msg)
    (hst : st.stage ≠ .DONE) :
    (processTurn st m).2.Pairwise (fun a b => a.pos < b.pos) ∧
    (∀ x ∈ (processTurn st m).2,
      st.stage.pos < x.pos ∧ x.pos ≤ (processTurn st m).1.stage.pos) ∧
    st.stage.pos ≤ (processTurn st m).1.stage.pos := by
  cases hstage : st.stage with
  | INIT =>
    cases hp : st.profile with
    | some p =>
      simp only [processTurn, hstage, hp, consumeAtJD]
      by_cases ha : m.analysisOk <;> by_cases hs : m.synthesisOk <;>
        simp [ha, hs, hstage, Stage.pos]
    | none =>
      simp only [processTurn, hstage, hp, consumeAtResume]
      cases he : extractProfile m <;>
        simp [hstage, Stage.pos]
  | AWAIT_RESUME =>
    simp only [processTurn, hstage, consumeAtResume]
    cases he : extractProfile m <;>
      simp [hstage, Stage.pos]
  | AWAIT_JOB_DESCRIPTION =>
    simp only [processTurn, hstage, consumeAtJD]
    by_cases ha : m.analysisOk <;> by_cases hs : m.synthesisOk <;>
      simp [ha, hs, hstage, Stage.pos]
  | SYNTHESIZING_DOCUMENT =>
    simp only [processTurn, hstage]
    by_cases hs : m.synthesisOk <;> simp [hs, hstage, Stage.pos]
  | DONE => exact absurd hstage hst
  | EXTRACTING_PROFILE => simp [processTurn, hstage, Stage.pos]
  | ANALYZING_JOB => simp [processTurn, hstage, Stage.pos]
  | SELECTING_CONTENT => simp [processTurn, hstage, Stage.pos]
  | SCORING_ATS => simp [processTurn, hstage, Stage.pos]

/-- Over a restart-free run the full visited trace strictly ascends and
stays strictly after the initial stage. -/
theorem runTrace_ascending (ms : List Msg) : ∀ st : EngineState,
    noRestart st ms →
    (runTrace st ms).Pairwise (fun a b => a.pos < b.pos) ∧
    ∀ x ∈ runTrace st ms, st.stage.pos < x.pos := by
  induction ms with
  | nil => intro st _; simp [runTrace]
  | cons m ms ih =>
    intro st hnr
    obtain ⟨hne, hnr2⟩ := hnr
    obtain ⟨h1, h2, h3⟩ := processTurn_ascending st m hne
    obtain ⟨ih1, ih2⟩ := ih (processTurn st m).1 hnr2
    constructor
    · rw [runTrace]
      rw [List.pairwise_append]
      refine ⟨h1, ih1, ?_⟩
      intro a ha b hb
      have hb2 := ih2 b hb
      have ha2 := (h2 a ha).2
      omega
    · intro x hx
      rw [runTrace] at hx
      rcases List.mem_append.mp hx with hx | hx
      · exact (h2 x hx).1
      · exact lt_of_le_of_lt h3 (ih2 x hx)

theorem canonical_cons_drop (s : Stage) :
    canonicalOrder.drop s.pos = s :: canonicalOrder.drop (s.pos + 1) := by
  cases s <;> rfl

/-- A stage and the tail of the canonical order after it embed into any
earlier suffix of the canonical order. -/
theorem cons_drop_sublist : ∀ (k n : ℕ) (s : Stage), s.pos = n + k →
    (s :: canonicalOrder.drop (s.pos + 1)).Sublist (canonicalOrder.drop n) := by
  intro k
  induction k with
  | zero =>
    intro n s hs
    have : n = s.pos := by omega
    subst this
    rw [canonical_cons_drop s]
  | succ k ih =>
    intro n s hs
    have hlt : n < canonicalOrder.length := by
      have := Stage.pos_le_eight s
      simp only [canonicalOrder, List.length]
      omega
    have hdrop : canonicalOrder.drop n
        = canonicalOrder[n] :: canonicalOrder.drop (n + 1) :=
      List.drop_eq_getElem_cons hlt
    rw [hdrop]
    exact (ih (n + 1) s (by omega)).cons canonicalOrder[n]

/-- A strictly ascending list of stages is a subsequence of the canonical
order (from any lower bound on). -/
theorem ascending_sublist_drop : ∀ (l : List Stage) (n : ℕ),
    l.Pairwise (fun a b => a.pos < b.pos) → (∀ x ∈ l, n ≤ x.pos) →
    l.Sublist (canonicalOrder.drop n) := by
  intro l
  induction l with
  | nil => intro n _ _; exact List.nil_sublist _
  | cons a t ih =>
    intro n hp hb
    have han : n ≤ a.pos := hb a (List.mem_cons_self a t)
    rw [List.pairwise_cons] at hp
    have h2 : t.Sublist (canonicalOrder.drop (a.pos + 1)) := by
      apply ih (a.pos + 1) hp.2
      intro x hx
      exact hp.1 x hx
    have h1 : (a :: canonicalOrder.drop (a.pos + 1)).Sublist
        (canonicalOrder.drop n) :=
      cons_drop_sublist (a.pos - n) n a (by omega)
    exact (h2.cons₂ a).trans h1

/-- On a turn from a state with a stored profile and not waiting for a
resume, `AWAIT_RESUME` is not visited and both facts are preserved. -/
theorem processTurn_no_await_resume (st : EngineState) (m : Msg)
    (h1 : st.profile.isSome) (h2 : st.stage ≠ .AWAIT_RESUME) :
    Stage.AWAIT_RESUME ∉ (processTurn st m).2 ∧
    (processTurn st m).1.profile.isSome ∧
    (processTurn st m).1.stage ≠ .AWAIT_RESUME := by
  cases hstage : st.stage with
  | INIT =>
    cases hp : st.profile with
    | some p =>
      simp only [processTurn, hstage, hp, consumeAtJD]
      by_cases ha : m.analysisOk <;> by_cases hs : m.synthesisOk <;>
        simp [ha, hs, hp]
    | none => rw [hp] at h1; exact absurd h1 (by simp)
  | AWAIT_RESUME => exact absurd hstage h2
  | AWAIT_JOB_DESCRIPTION =>
    simp only [processTurn, hstage, consumeAtJD]
    by_cases ha : m.analysisOk <;> by_cases hs : m.synthesisOk <;>
      simp [ha, hs, h1]
  | SYNTHESIZING_DOCUMENT =>
    simp only [processTurn, hstage]
    by_cases hs : m.synthesisOk <;> simp [hs, h1, hstage]
  | DONE =>
    simp only [processTurn, hstage, consumeAtJD]
    by_cases ha : m.analysisOk <;> by_cases hs : m.synthesisOk <;>
      simp [ha, hs, h1]
  | EXTRACTING_PROFILE => simp [processTurn, hstage, h1, hstage]
  | ANALYZING_JOB => simp [processTurn, hstage, h1, hstage]
  | SELECTING_CONTENT => simp [processTurn, hstage, h1, hstage]
  | SCORING_ATS => simp [processTurn, hstage, h1, hstage]

/-- For a thread whose user already has a profile, `AWAIT_RESUME` never
appears in the trace, whatever the messages. -/
theorem runTrace_no_await_resume (ms : List Msg) : ∀ st : EngineState,
    st.profile.isSome → st.stage ≠ .AWAIT_RESUME →
    Stage.AWAIT_RESUME ∉ runTrace st ms := by
  induction ms with
  | nil => intro st _ _; simp [runTrace]
  | cons m ms ih =>
    intro st h1 h2
    obtain ⟨ha, hb, hc⟩ := processTurn_no_await_resume st m h1 h2
    rw [runTrace]
    intro hx
    rcases List.mem_append.mp hx with hx | hx
    · exact ha hx
    · exact ih (processTurn st m).1 hb hc hx

/-- A message that carries a job posting and for which every external
call succeeds. -/
def jobMsg : Msg :=
  { text := ("job description"), extractionUsable := true
    analysisOk := true, synthesisOk := true }

/-- Counterexample to claim C3: after a completed generation the engine
restarts at `AWAIT_JOB_DESCRIPTION` (claim C4, spec section 4.1), so a
thread with two generations visits `AWAIT_JOB_DESCRIPTION` again after
`DONE` and its full visited sequence is not a subsequence of the canonical
order. -/
theorem stage_order_counterexample :
    ¬ (Stage.INIT ::
        runTrace (initialState (some ("p"))) [jobMsg, jobMsg]).Sublist
      canonicalOrder := by
  intro h
  have hc := h.count_le Stage.AWAIT_JOB_DESCRIPTION
  revert hc
  decide

/-- Claim C3 as amended (spec-modelled): over any restart-free run (no
message processed while the thread is in `DONE`, i.e. within a single
generation cycle) the sequence of visited stages is a subsequence of the
canonical order; and if a profile already existed when the thread began,
`AWAIT_RESUME` is never visited, restart-free or not. -/
theorem stage_order_per_generation (existingProfile : Option String)
    (ms : List Msg) :
    (noRestart (initialState existingProfile) ms →
      (Stage.INIT :: runTrace (initialState existingProfile) ms).Sublist
        canonicalOrder) ∧
    (existingProfile.isSome →
      Stage.AWAIT_RESUME ∉
        Stage.INIT :: runTrace (initialState existingProfile) ms) := by
  constructor
  · intro hnr
    obtain ⟨h1, h2⟩ := runTrace_ascending ms (initialState existingProfile) hnr
    have hasc : (Stage.INIT ::
        runTrace (initialState existingProfile) ms).Pairwise
        (fun a b => a.pos < b.pos) := by
      rw [List.pairwise_cons]
      exact ⟨fun x hx => h2 x hx, h1⟩
    have := ascending_sublist_drop
      (Stage.INIT :: runTrace (initialState existingProfile) ms) 0 hasc
      (fun x _ => Nat.zero_le x.pos)
    simpa using this
  · intro hp hmem
    rcases List.mem_cons.mp hmem with h | h
    · exact absurd h.symm (by decide)
    · exact runTrace_no_await_resume ms (initialState existingProfile)
        hp (by simp [initialState]) h

/-- Witness for the amended C3: a returning-user thread that completes one
generation in one turn. -/
theorem stage_order_per_generation_witness :
    (Stage.INIT ::
      runTrace (initialState (some ("p"))) [jobMsg]).Sublist canonicalOrder ∧
    Stage.AWAIT_RESUME ∉
      Stage.INIT :: runTrace (initialState (some ("p"))) [jobMsg] :=
  ⟨(stage_order_per_generation (some ("p")) [jobMsg]).1 ⟨by decide, trivial⟩,
   (stage_order_per_generation (some ("p")) [jobMsg]).2 (by decide)⟩

/-- Claim C4 (spec-modelled): a new inbound message on a thread in `DONE`
restarts the machine at `AWAIT_JOB_DESCRIPTION` with the stored profile
retained; if the message is a job posting and the generation succeeds the
thread reaches `DONE` again, so repeated generations in the same thread
are possible. -/
theorem done_restart (st : EngineState) (m : Msg) (h : st.stage = .DONE) :
    (processTurn st m).1.profile = st.profile ∧
    ((processTurn st m).2).head? = some .AWAIT_JOB_DESCRIPTION ∧
    Stage.AWAIT_RESUME ∉ (processTurn st m).2 ∧
    (m.analysisOk = true → m.synthesisOk = true →
      (processTurn st m).1.stage = .DONE) ∧
    (m.analysisOk = false →
      (processTurn st m).1.stage = .AWAIT_JOB_DESCRIPTION) := by
  simp only [processTurn, h, consumeAtJD]
  by_cases ha : m.analysisOk <;> by_cases hs : m.synthesisOk <;>
    simp [ha, hs]

/-- Witness for C4: a finished thread receiving a new job posting. -/
theorem done_restart_witness :
    (processTurn { stage := .DONE, profile := some ("p") } jobMsg).1.profile
      = some ("p") ∧
    ((processTurn { stage := .DONE, profile := some ("p") } jobMsg).2).head?
      = some .AWAIT_JOB_DESCRIPTION ∧
    (processTurn { stage := .DONE, profile := some ("p") } jobMsg).1.stage
      = .DONE := by
  obtain ⟨h1, h2, _, h4, _⟩ :=
    done_restart { stage := .DONE, profile := some ("p") } jobMsg rfl
  exact ⟨h1, h2, h4 rfl rfl⟩

/-- Claim C8 (spec-modelled): a resume shorter than the minimum length is
rejected with `ExtractionError too_short` and the stage remains
`AWAIT_RESUME`: the state is unchanged and nothing further is visited. -/
theorem short_resume_rejected (st : EngineState) (m : Msg)
    (hstage : st.stage = .AWAIT_RESUME)
    (hshort : m.text.length < minResumeLength) :
    extractProfile m = .error .too_short ∧
    (processTurn st m).1 = st ∧
    (processTurn st m).1.stage = .AWAIT_RESUME ∧
    (processTurn st m).2 = [] := by
  have hextract : extractProfile m = .error .too_short := by
    simp [extractProfile, hshort]
  have hself : { st with stage := Stage.AWAIT_RESUME } = st := by
    cases st
    simp_all
  have hturn : processTurn st m = (st, []) := by
    simp only [processTurn, hstage, consumeAtResume, hextract]
    rw [hself]
  exact ⟨hextract, by rw [hturn], by rw [hturn]; exact hstage, by rw [hturn]⟩

/-- Witness for C8: a ten-character resume text. -/
theorem short_resume_rejected_witness :
    extractProfile
        { text := ("aaaaaaaaaa"), extractionUsable := true
          analysisOk := true, synthesisOk := true }
      = .error .too_short ∧
    (processTurn { stage := .AWAIT_RESUME, profile := none }
        { text := ("aaaaaaaaaa"), extractionUsable := true
          analysisOk := true, synthesisOk := true }).1.stage
      = .AWAIT_RESUME := by
  obtain ⟨h1, _, h3, _⟩ :=
    short_resume_rejected { stage := .AWAIT_RESUME, profile := none }
      { text := ("aaaaaaaaaa"), extractionUsable := true
        analysisOk := true, synthesisOk := true }
      rfl (by decide)
  exact ⟨h1, h3⟩


/-! ## Document Synthesizer

Modelled from the spec (section 4.6; `latex_service.py` is missing from
the snapshot): a fixed template of literal segments and named
placeholders; every user-supplied value is passed through a
character-escaping function mapping each of the ten reserved characters
to its literal-safe representation; an unresolved placeholder is a
template error.
-/

/-- The ten reserved characters of the document format, each with its
literal-safe representation. -/
def escTable : List (Char × List Char) :=
  [('&', ['\\', '&']),
   ('%', ['\\', '%']),
   ('$', ['\\', '$']),
   ('#', ['\\', '#']),
   ('_', ['\\', '_']),
   ('{', ['\\', '{']),
   ('}', ['\\', '}']),
   ('~', ['\\', 't', 'e', 'x', 't', 'a', 's', 'c', 'i', 'i', 't', 'i',
          'l', 'd', 'e', '{', '}']),
   ('^', ['\\', '^', '{', '}']),
   ('\\', ['\\', 't', 'e', 'x', 't', 'b', 'a', 'c', 'k', 's', 'l', 'a',
           's', 'h', '{', '}'])]

/-- The escape of one character: reserved characters map to their
literal-safe representation, all others pass through unchanged. -/
def escChar (c : Char) : List Char :=
  match escTable.find? (fun p => p.1 = c) with
  | some p => p.2
  | none => [c]

/-- Escape a whole text, character by character (applied uniformly). -/
def escList : List Char → List Char
  | [] => []
  | c :: r => escChar c ++ escList r

/-- Recognize the escape sequence following a backslash: the decoded
character and the number of characters consumed. -/
def decodeSlash : List Char → Option (Char × ℕ)
  | '&' :: _ => some ('&', 1)
  | '%' :: _ => some ('%', 1)
  | '$' :: _ => some ('$', 1)
  | '#' :: _ => some ('#', 1)
  | '_' :: _ => some ('_', 1)
  | '{' :: _ => some ('{', 1)
  | '}' :: _ => some ('}', 1)
  | '^' :: '{' :: '}' :: _ => some ('^', 3)
  | 't' :: 'e' :: 'x' :: 't' :: 'a' :: 's' :: 'c' :: 'i' :: 'i' ::
      't' :: 'i' :: 'l' :: 'd' :: 'e' :: '{' :: '}' :: _ =>
    some ('~', 16)
  | 't' :: 'e' :: 'x' :: 't' :: 'b' :: 'a' :: 'c' :: 'k' :: 's' ::
      'l' :: 'a' :: 's' :: 'h' :: '{' :: '}' :: _ =>
    some ('\\', 15)
  | _ => none

/-- Decoder for escaped text: inverts `escList` on its image. -/
def unescList (l : List Char) : List Char :=
  match l with
  | [] => []
  | c :: t =>
    if c = '\\' then
      match decodeSlash t with
      | some (d, k) => d :: unescList (t.drop k)
      | none => c :: unescList t
    else c :: unescList t
termination_by l.length
decreasing_by
  all_goals simp [List.length_drop]
  omega

/-- A template token: a literal segment or a named placeholder. -/
inductive Tok
  | lit (s : String)
  | ph (name : String)
  deriving DecidableEq

/-- Failure of template substitution. -/
inductive TemplateError
  | unresolved (name : String)
  deriving DecidableEq

/-- Fill a template: substitute every placeholder with the escaped
user-supplied value; an unresolved placeholder is fatal. -/
def synthesize (vals : String → Option String) :
    List Tok → Except TemplateError (List Char)
  | [] => .ok []
  | Tok.lit s :: ts => (synthesize vals ts).map (fun r => s.data ++ r)
  | Tok.ph n :: ts =>
    match vals n with
    | none => .error (.unresolved n)
    | some v => (synthesize vals ts).map (fun r => escList v.data ++ r)

/-- The substituted document as a plain concatenation (escaping applied to
every placeholder value). -/
def flatParts (vals : String → Option String) : List Tok → List Char
  | [] => []
  | Tok.lit s :: ts => s.data ++ flatParts vals ts
  | Tok.ph n :: ts =>
    (match vals n with
     | some v => escList v.data
     | none => []) ++ flatParts vals ts

/-- Adjacent characters are not both opening braces. -/
def braceOK (a b : Char) : Prop := ¬ (a = '{' ∧ b = '{')

instance (a b : Char) : Decidable (braceOK a b) :=
  inferInstanceAs (Decidable (¬ _))

/-- Whether the head of a text may follow the given character without
forming two adjacent opening braces. -/
def pairOK (a : Char) : List Char → Bool
  | [] => true
  | b :: _ => decide (braceOK a b)

/-- Executable check that a text has no two adjacent opening braces. -/
def noTwoBracesB : List Char → Bool
  | [] => true
  | a :: r => pairOK a r && noTwoBracesB r

theorem chain'_of_noTwoBracesB :
    ∀ l : List Char, noTwoBracesB l = true → List.Chain' braceOK l
  | [] => fun _ => List.chain'_nil
  | a :: r => by
    intro h
    rw [noTwoBracesB, Bool.and_eq_true] at h
    cases r with
    | nil => exact List.chain'_singleton a
    | cons b r2 =>
      rw [List.chain'_cons]
      refine ⟨of_decide_eq_true ?_, chain'_of_noTwoBracesB (b :: r2) h.2⟩
      have := h.1
      rw [pairOK] at this
      exact this

/-- Wellformedness of a template token: literal segments contain no two
adjacent opening braces and do not start with one (true of the fixed
resume template, whose placeholders are tokenized away). -/
def litOK : Tok → Prop
  | Tok.lit s => List.Chain' braceOK s.data ∧ s.data.head? ≠ some '{'
  | Tok.ph _ => True

theorem escChar_ne_nil (c : Char) : escChar c ≠ [] := by
  rw [escChar]
  cases hf : escTable.find? (fun p => p.1 = c) with
  | none => exact List.cons_ne_nil _ _
  | some p =>
    have hmem := List.mem_of_find?_eq_some hf
    have hall : ∀ x ∈ escTable, x.2 ≠ [] := by decide
    exact hall p hmem

theorem escChar_head (c : Char) : (escChar c).head? ≠ some '{' := by
  rw [escChar]
  cases hf : escTable.find? (fun p => p.1 = c) with
  | none =>
    have hall := List.find?_eq_none.mp hf
    have hbrace : ('{', ['\\', '{']) ∈ escTable := by decide
    have hne := hall _ hbrace
    simp only [decide_eq_true_eq] at hne
    intro hcon
    exact hne (Option.some.inj hcon).symm
  | some p =>
    have hmem := List.mem_of_find?_eq_some hf
    have hall : ∀ x ∈ escTable, x.2.head? ≠ some '{' := by decide
    exact hall p hmem

theorem escChar_chain (c : Char) : List.Chain' braceOK (escChar c) := by
  rw [escChar]
  cases hf : escTable.find? (fun p => p.1 = c) with
  | none => exact List.chain'_singleton c
  | some p =>
    have hmem := List.mem_of_find?_eq_some hf
    have hall : ∀ x ∈ escTable, noTwoBracesB x.2 = true := by decide
    exact chain'_of_noTwoBracesB p.2 (hall p hmem)

theorem escList_head : ∀ l : List Char, (escList l).head? ≠ some '{'
  | [] => by simp [escList]
  | c :: r => by
    rw [escList, List.head?_append]
    cases h : (escChar c).head? with
    | none => exact absurd (List.head?_eq_none_iff.mp h) (escChar_ne_nil c)
    | some a =>
      have hhd := escChar_head c
      rw [h] at hhd
      simp only [h, Option.or_some]
      intro hcon
      rw [hcon] at hhd
      exact hhd rfl

theorem escList_chain : ∀ l : List Char, List.Chain' braceOK (escList l)
  | [] => List.chain'_nil
  | c :: r => by
    rw [escList, List.chain'_append]
    refine ⟨escChar_chain c, escList_chain r, ?_⟩
    intro x _ y hy
    have hhd := escList_head r
    intro hpair
    rw [hpair.2] at hy
    exact hhd hy

theorem unesc_amp (x : List Char) :
    unescList ('\\' :: '&' :: x) = '&' :: unescList x := by
  rw [unescList]
  rfl

theorem unesc_pct (x : List Char) :
    unescList ('\\' :: '%' :: x) = '%' :: unescList x := by
  rw [unescList]
  rfl

theorem unesc_dollar (x : List Char) :
    unescList ('\\' :: '$' :: x) = '$' :: unescList x := by
  rw [unescList]
  rfl

theorem unesc_hash (x : List Char) :
    unescList ('\\' :: '#' :: x) = '#' :: unescList x := by
  rw [unescList]
  rfl

theorem unesc_underscore (x : List Char) :
    unescList ('\\' :: '_' :: x) = '_' :: unescList x := by
  rw [unescList]
  rfl

theorem unesc_lbrace (x : List Char) :
    unescList ('\\' :: '{' :: x) = '{' :: unescList x := by
  rw [unescList]
  rfl

theorem unesc_rbrace (x : List Char) :
    unescList ('\\' :: '}' :: x) = '}' :: unescList x := by
  rw [unescList]
  rfl

theorem unesc_caret (x : List Char) :
    unescList ('\\' :: '^' :: '{' :: '}' :: x) = '^' :: unescList x := by
  rw [unescList]
  rfl

theorem unesc_tilde (x : List Char) :
    unescList ('\\' :: 't' :: 'e' :: 'x' :: 't' :: 'a' :: 's' :: 'c' ::
      'i' :: 'i' :: 't' :: 'i' :: 'l' :: 'd' :: 'e' :: '{' :: '}' :: x)
      = '~' :: unescList x := by
  rw [unescList]
  rfl

theorem unesc_backslash (x : List Char) :
    unescList ('\\' :: 't' :: 'e' :: 'x' :: 't' :: 'b' :: 'a' :: 'c' ::
      'k' :: 's' :: 'l' :: 'a' :: 's' :: 'h' :: '{' :: '}' :: x)
      = '\\' :: unescList x := by
  rw [unescList]
  rfl

theorem unescList_cons_of_ne (c : Char) (h : c ≠ '\\') (t : List Char) :
    unescList (c :: t) = c :: unescList t := by
  rw [unescList]
  simp [h]

/-- Escaping is lossless: the decoder recovers the exact user text, so
escaping truncates nothing and reorders nothing. -/
theorem unescList_escList : ∀ l : List Char, unescList (escList l) = l
  | [] => by rw [escList, unescList]
  | c :: r => by
    have ih := unescList_escList r
    by_cases h1 : c = '&'
    · subst h1
      rw [escList]
      show unescList ('\\' :: '&' :: escList r) = '&' :: r
      rw [unesc_amp, ih]
    by_cases h2 : c = '%'
    · subst h2
      rw [escList]
      show unescList ('\\' :: '%' :: escList r) = '%' :: r
      rw [unesc_pct, ih]
    by_cases h3 : c = '$'
    · subst h3
      rw [escList]
      show unescList ('\\' :: '$' :: escList r) = '$' :: r
      rw [unesc_dollar, ih]
    by_cases h4 : c = '#'
    · subst h4
      rw [escList]
      show unescList ('\\' :: '#' :: escList r) = '#' :: r
      rw [unesc_hash, ih]
    by_cases h5 : c = '_'
    · subst h5
      rw [escList]
      show unescList ('\\' :: '_' :: escList r) = '_' :: r
      rw [unesc_underscore, ih]
    by_cases h6 : c = '{'
    · subst h6
      rw [escList]
      show unescList ('\\' :: '{' :: escList r) = '{' :: r
      rw [unesc_lbrace, ih]
    by_cases h7 : c = '}'
    · subst h7
      rw [escList]
      show unescList ('\\' :: '}' :: escList r) = '}' :: r
      rw [unesc_rbrace, ih]
    by_cases h8 : c = '~'
    · subst h8
      rw [escList]
      show unescList ('\\' :: 't' :: 'e' :: 'x' :: 't' :: 'a' :: 's' ::
        'c' :: 'i' :: 'i' :: 't' :: 'i' :: 'l' :: 'd' :: 'e' :: '{' ::
        '}' :: escList r) = '~' :: r
      rw [unesc_tilde, ih]
    by_cases h9 : c = '^'
    · subst h9
      rw [escList]
      show unescList ('\\' :: '^' :: '{' :: '}' :: escList r) = '^' :: r
      rw [unesc_caret, ih]
    by_cases h10 : c = '\\'
    · subst h10
      rw [escList]
      show unescList ('\\' :: 't' :: 'e' :: 'x' :: 't' :: 'b' :: 'a' ::
        'c' :: 'k' :: 's' :: 'l' :: 'a' :: 's' :: 'h' :: '{' :: '}' ::
        escList r) = '\\' :: r
      rw [unesc_backslash, ih]
    have hesc : escChar c = [c] := by
      rw [escChar]
      have hnone : escTable.find? (fun p => p.1 = c) = none := by
        rw [List.find?_eq_none]
        intro p hp
        simp only [decide_eq_true_eq]
        intro hpc
        subst hpc
        fin_cases hp <;> simp_all
      rw [hnone]
    rw [escList, hesc, List.singleton_append, unescList_cons_of_ne c h10, ih]

/-- A successful synthesis yields the flat substitution with every value
escaped, contains no two adjacent opening braces, never starts with an
opening brace, and resolved every placeholder. -/
theorem synthesize_ok_props (vals : String → Option String) :
    ∀ (ts : List Tok) (out : List Char), (∀ t ∈ ts, litOK t) →
      synthesize vals ts = .ok out →
      List.Chain' braceOK out ∧ out.head? ≠ some '{' ∧
      out = flatParts vals ts ∧
      (∀ n, Tok.ph n ∈ ts → ∃ v, vals n = some v) := by
  intro ts
  induction ts with
  | nil =>
    intro out _ hok
    simp only [synthesize] at hok
    cases hok
    exact ⟨List.chain'_nil, by simp, rfl, by simp⟩
  | cons t ts ih =>
    intro out hwf hok
    have hwft : ∀ x ∈ ts, litOK x :=
      fun x hx => hwf x (List.mem_cons_of_mem t hx)
    cases t with
    | lit s =>
      have hs : List.Chain' braceOK s.data ∧ s.data.head? ≠ some '{' :=
        hwf (Tok.lit s) (List.mem_cons_self _ _)
      cases hrec : synthesize vals ts with
      | error e => rw [synthesize, hrec] at hok; cases hok
      | ok rest =>
        rw [synthesize, hrec] at hok
        have hout : out = s.data ++ rest := by
          cases hok
          rfl
        obtain ⟨c1, c2, c3, c4⟩ := ih rest hwft hrec
        subst hout
        refine ⟨?_, ?_, ?_, ?_⟩
        · rw [List.chain'_append]
          refine ⟨hs.1, c1, ?_⟩
          intro x _ y hy hpair
          rw [hpair.2] at hy
          exact c2 hy
        · rw [List.head?_append]
          cases hd : s.data.head? with
          | none => simpa using c2
          | some a =>
            have hhd := hs.2
            rw [hd] at hhd
            simp only [Option.or_some]
            intro hcon
            rw [hcon] at hhd
            exact hhd rfl
        · rw [flatParts, c3]
        · intro n hn
          rcases List.mem_cons.mp hn with h | h
          · cases h
          · exact c4 n h
    | ph n =>
      cases hv : vals n with
      | none => rw [synthesize, hv] at hok; cases hok
      | some v =>
        cases hrec : synthesize vals ts with
        | error e => rw [synthesize, hv, hrec] at hok; cases hok
        | ok rest =>
          rw [synthesize, hv, hrec] at hok
          have hout : out = escList v.data ++ rest := by
            cases hok
            rfl
          obtain ⟨c1, c2, c3, c4⟩ := ih rest hwft hrec
          subst hout
          refine ⟨?_, ?_, ?_, ?_⟩
          · rw [List.chain'_append]
            refine ⟨escList_chain v.data, c1, ?_⟩
            intro x _ y hy hpair
            rw [hpair.2] at hy
            exact c2 hy
          · rw [List.head?_append]
            cases hd : (escList v.data).head? with
            | none => simpa using c2
            | some a =>
              have hhd := escList_head v.data
              rw [hd] at hhd
              simp only [Option.or_some]
              intro hcon
              rw [hcon] at hhd
              exact hhd rfl
          · rw [flatParts, hv, c3]
          · intro n2 hn2
            rcases List.mem_cons.mp hn2 with h | h
            · cases h
              exact ⟨v, hv⟩
            · exact c4 n2 h

/-- Claim C5 (spec-modelled): on a successful synthesis over a wellformed
template, the output is exactly the template with every user-supplied
value substituted in escaped form; the escaping maps each occurrence of
each of the ten reserved characters to its literal-safe representation
and is lossless (nothing truncated, nothing reordered — witnessed by the
decoder inverting it); every placeholder was resolved; and no placeholder
token of the form `\x7b\x7bNAME\x7d\x7d` remains anywhere in the output. -/
theorem document_synthesizer_escapes (ts : List Tok)
    (vals : String → Option String) (out : List Char)
    (hwf : ∀ t ∈ ts, litOK t) (hok : synthesize vals ts = .ok out) :
    (∀ l : List Char, unescList (escList l) = l) ∧
    out = flatParts vals ts ∧
    (∀ n, Tok.ph n ∈ ts → ∃ v, vals n = some v) ∧
    (∀ n : String,
      ¬ ('{' :: '{' :: (n.data ++ ['}', '}'])) <:+: out) := by
  obtain ⟨c1, _, c3, c4⟩ := synthesize_ok_props vals ts out hwf hok
  refine ⟨unescList_escList, c3, c4, ?_⟩
  intro n hinf
  obtain ⟨s, t, hst⟩ := hinf
  have hsuffix : ('{' :: '{' :: (n.data ++ ['}', '}']) ++ t) <:+ out := by
    refine ⟨s, ?_⟩
    rw [← hst]
    simp
  have hchain2 := List.Chain'.suffix c1 hsuffix
  have hmid := (List.chain'_append.mp hchain2).1
  have hpair := (List.chain'_cons.mp hmid).1
  exact hpair ⟨rfl, rfl⟩

/-- Concrete template for the C5 witness. -/
def c5Template : List Tok :=
  [Tok.lit ("Hello "), Tok.ph ("FULL_NAME"), Tok.lit ("!")]

/-- Concrete placeholder assignment for the C5 witness. -/
def c5Vals : String → Option String :=
  fun n => if n = ("FULL_NAME") then some ("A & B_x") else none

/-- Concrete synthesized output for the C5 witness. -/
def c5Out : List Char := (synthesize c5Vals c5Template).toOption.getD []

/-- Witness for C5 at a concrete template and value assignment. -/
theorem document_synthesizer_escapes_witness :
    (∀ l : List Char, unescList (escList l) = l) ∧
    c5Out = flatParts c5Vals c5Template ∧
    (∀ n, Tok.ph n ∈ c5Template → ∃ v, c5Vals n = some v) ∧
    (∀ n : String,
      ¬ ('{' :: '{' :: (n.data ++ ['}', '}'])) <:+: c5Out) := by
  refine document_synthesizer_escapes c5Template c5Vals c5Out ?_ (by rfl)
  intro t ht
  fin_cases ht
  · exact ⟨chain'_of_noTwoBracesB _ (by decide), by decide⟩
  · trivial
  · exact ⟨chain'_of_noTwoBracesB _ (by decide), by decide⟩

/-! ## Builder chat client (frontend)

Translated from the BuilderPage `sendMessage` handler of the Next.js
frontend: the ATS score state is updated only when the response carries a
non-null `ats_score`, and the LaTeX code state only when the response
carries a truthy (non-null, non-empty) `latex_code`.
-/

/-- One conversation-turn response as received by the chat client. -/
structure ChatResponse where
  thread_id : String
  response : String
  ats_score : Option ℚ
  latex_code : Option String

/-- The client-side state the builder page keeps across turns. -/
structure BuilderState where
  threadId : Option String
  atsScore : Option ℚ
  latexCode : Option String

/-- Apply one response to the client state, as `sendMessage` does:
`setThreadId` always; `setAtsScore` only when `ats_score` is not null;
`setLatexCode` only when `latex_code` is truthy. -/
def applyResponse (st : BuilderState) (r : ChatResponse) : BuilderState :=
  { threadId := some r.thread_id
    atsScore :=
      match r.ats_score with
      | some v => some v
      | none => st.atsScore
    latexCode :=
      match r.latex_code with
      | some s => if s = ("") then st.latexCode else some s
      | none => st.latexCode }

/-- Claim C9: a turn whose response carries a null `ats_score` or a null
`latex_code` leaves the respective stored value unchanged, and a stored
value is never cleared back to null by any later response. -/
theorem builder_keeps_results (st : BuilderState) (r : ChatResponse) :
    (r.ats_score = none → (applyResponse st r).atsScore = st.atsScore) ∧
    (r.latex_code = none → (applyResponse st r).latexCode = st.latexCode) ∧
    (st.atsScore.isSome → ((applyResponse st r).atsScore).isSome) ∧
    (st.latexCode.isSome → ((applyResponse st r).latexCode).isSome) := by
  refine ⟨?_, ?_, ?_, ?_⟩
  · intro h
    simp [applyResponse, h]
  · intro h
    simp [applyResponse, h]
  · intro h
    cases ha : r.ats_score <;> simp [applyResponse, ha, h]
  · intro h
    cases hl : r.latex_code with
    | none => simpa [applyResponse, hl] using h
    | some s =>
      by_cases hs : s = ("") <;> simp [applyResponse, hl, hs, h]

/-- Witness for C9: a stored score of 80 and LaTeX text survive a
response carrying null for both. -/
theorem builder_keeps_results_witness :
    (applyResponse
        { threadId := some ("t1"), atsScore := some 80
          latexCode := some ("code") }
        { thread_id := ("t1"), response := ("hi"), ats_score := none
          latex_code := none }).atsScore = some 80 ∧
    (applyResponse
        { threadId := some ("t1"), atsScore := some 80
          latexCode := some ("code") }
        { thread_id := ("t1"), response := ("hi"), ats_score := none
          latex_code := none }).latexCode = some ("code") := by
  obtain ⟨h1, h2, _, _⟩ := builder_keeps_results
    { threadId := some ("t1"), atsScore := some 80
      latexCode := some ("code") }
    { thread_id := ("t1"), response := ("hi"), ats_score := none
      latex_code := none }
  exact ⟨h1 rfl, h2 rfl⟩

/-! ## Dashboard resume list (frontend)

Translated from the DashboardPage of the Next.js frontend: the score
badge is rendered under the JavaScript truthiness test
`resume.ats_score && (...)`, so a null score and a zero score both
suppress the badge.
-/

/-- One resume row of the dashboard list. -/
structure ResumeCard where
  job_title : String
  company_name : Option String
  ats_score : Option ℚ
  has_pdf : Bool

/-- Whether the dashboard renders the score badge for a resume: the
JavaScript truthiness of `resume.ats_score` (null and 0 are falsy). -/
def showScoreBadge (ats : Option ℚ) : Bool :=
  match ats with
  | none => false
  | some v => decide (v ≠ 0)

/-- Claim C10: a resume with `ats_score = 0` shows no score badge, the
same visibility as `ats_score = null`; the badge appears exactly for
non-null, non-zero scores. -/
theorem dashboard_zero_score_no_badge :
    showScoreBadge (some 0) = false ∧
    showScoreBadge (some 0) = showScoreBadge none ∧
    (∀ v : ℚ, showScoreBadge (some v) = true ↔ v ≠ 0) := by
  refine ⟨by simp [showScoreBadge], by simp [showScoreBadge], ?_⟩
  intro v
  simp [showScoreBadge]

end ResumeBuilder
